import Mathlib

/-!
Verification of the host-device interaction engine of `mpr.py`
(MicroPython Remote).  The development shallowly embeds the byte-level
codec (`rd_*` / `wr_*`), the RPC server operations (`do_*` of
`PyboardCommand`), the read-path demultiplexer (`SerialIntercept`), the
mount lifecycle (`mount_local`), and the command runner (`main` /
`execbuffer`).  Machine integers are modelled as `Nat`/`Int` with explicit
two's-complement conversion; host filesystem calls are oracle parameters;
host-side Python exceptions are an explicit error type.
-/

/-- Host-side Python exceptions that can escape an RPC handler:
an uncaught `OSError` carrying an errno, a `struct.error` from packing an
out-of-range integer, and a `UnicodeError`/`TypeError` from str/bytes
conversion. -/
inductive HostEx
  | osErr (e : Int)
  | structErr
  | unicodeErr
  | typeErr
deriving DecidableEq

/-- Little-endian bytes of a 32-bit unsigned value, as written by
`struct.pack` with an unsigned 32-bit format. -/
def u32bytes (n : Nat) : List Nat :=
  [n % 256, n / 256 % 256, n / 65536 % 256, n / 16777216 % 256]

/-- Value of one byte reinterpreted as a signed 8-bit integer
(two's complement), as `struct.unpack` with a signed byte format does. -/
def toS8 (b : Nat) : Int :=
  if b < 128 then (b : Int) else (b : Int) - 256

/-- Value of a 32-bit little-endian quantity reinterpreted as signed. -/
def toS32 (n : Nat) : Int :=
  if n < 2147483648 then (n : Int) else (n : Int) - 4294967296

/-- PyboardCommand.rd_s8: read one byte from the stream as a signed 8-bit
integer; `none` when the stream is exhausted (the serial read times out and
struct.unpack raises). -/
def rd_s8 (l : List Nat) : Option (Int × List Nat) :=
  match l with
  | b :: r => some (toS8 b, r)
  | [] => none

/-- PyboardCommand.rd_s32: read four bytes little-endian as a signed 32-bit
integer. -/
def rd_s32 (l : List Nat) : Option (Int × List Nat) :=
  match l with
  | b0 :: b1 :: b2 :: b3 :: r =>
      some (toS32 (b0 + 256 * b1 + 65536 * b2 + 16777216 * b3), r)
  | _ => none

/-- PyboardCommand.wr_s8: `struct.pack` with the signed-byte format accepts
only -128..127 and raises `struct.error` otherwise. -/
def wr_s8 (i : Int) : Except HostEx (List Nat) :=
  if -128 ≤ i ∧ i < 128 then .ok [(i % 256).toNat] else .error .structErr

/-- PyboardCommand.wr_s32: signed 32-bit little-endian pack. -/
def wr_s32 (i : Int) : Except HostEx (List Nat) :=
  if -2147483648 ≤ i ∧ i < 2147483648 then
    .ok (u32bytes ((i % 4294967296).toNat))
  else .error .structErr

/-- PyboardCommand.wr_u32: unsigned 32-bit little-endian pack. -/
def wr_u32 (n : Nat) : Except HostEx (List Nat) :=
  if n < 4294967296 then .ok (u32bytes n) else .error .structErr

/-- PyboardCommand.wr_bytes: signed 32-bit length then the payload. -/
def wr_bytes (b : List Nat) : Except HostEx (List Nat) :=
  (wr_s32 b.length).map (· ++ b)

/-- Valid Unicode scalar value: what Python's utf8 codec will encode
(code points below 0x110000 that are not surrogates). -/
def ValidCp (c : Nat) : Prop :=
  c < 1114112 ∧ ¬(55296 ≤ c ∧ c ≤ 57343)

instance (c : Nat) : Decidable (ValidCp c) := by
  unfold ValidCp; infer_instance

/-- UTF-8 encoding of one code point (model of Python's utf8 codec;
meaningful on valid code points). -/
def utf8EncodeChar (c : Nat) : List Nat :=
  if c < 128 then [c]
  else if c < 2048 then [192 + c / 64, 128 + c % 64]
  else if c < 65536 then [224 + c / 4096, 128 + c / 64 % 64, 128 + c % 64]
  else [240 + c / 262144, 128 + c / 4096 % 64, 128 + c / 64 % 64, 128 + c % 64]

/-- UTF-8 encoding of a string given as its code points. -/
def utf8Encode (s : List Nat) : List Nat :=
  (s.map utf8EncodeChar).flatten

/-- Python's `bytes(s, "utf8")`: fails (UnicodeEncodeError) when the string
contains an invalid code point such as a lone surrogate. -/
def utf8EncodeValid (s : List Nat) : Option (List Nat) :=
  if ∀ c ∈ s, ValidCp c then some (utf8Encode s) else none

/-- Strict UTF-8 decoder for one code point (model of Python's utf8 codec):
rejects continuation-byte errors, overlong forms, surrogates and values
above 0x10FFFF. -/
def utf8DecodeOne (l : List Nat) : Option (Nat × List Nat) :=
  match l with
  | [] => none
  | b :: r =>
    if b < 128 then some (b, r)
    else if 194 ≤ b ∧ b ≤ 223 then
      match r with
      | b1 :: r1 =>
        if 128 ≤ b1 ∧ b1 ≤ 191 then some ((b - 192) * 64 + (b1 - 128), r1)
        else none
      | [] => none
    else if 224 ≤ b ∧ b ≤ 239 then
      match r with
      | b1 :: b2 :: r2 =>
        if (128 ≤ b1 ∧ b1 ≤ 191) ∧ (128 ≤ b2 ∧ b2 ≤ 191)
            ∧ (b = 224 → 160 ≤ b1) ∧ (b = 237 → b1 ≤ 159) then
          some ((b - 224) * 4096 + (b1 - 128) * 64 + (b2 - 128), r2)
        else none
      | _ => none
    else if 240 ≤ b ∧ b ≤ 244 then
      match r with
      | b1 :: b2 :: b3 :: r3 =>
        if (128 ≤ b1 ∧ b1 ≤ 191) ∧ (128 ≤ b2 ∧ b2 ≤ 191) ∧ (128 ≤ b3 ∧ b3 ≤ 191)
            ∧ (b = 240 → 144 ≤ b1) ∧ (b = 244 → b1 ≤ 143) then
          some ((b - 240) * 262144 + (b1 - 128) * 4096 + (b2 - 128) * 64 + (b3 - 128), r3)
        else none
      | _ => none
    else none

/-- Fuel-bounded UTF-8 string decoder; with fuel at least the length of the
input this is total on it. -/
def utf8DecodeAux : Nat → List Nat → Option (List Nat)
  | _, [] => some []
  | 0, _ :: _ => none
  | fuel + 1, b :: r =>
    match utf8DecodeOne (b :: r) with
    | none => none
    | some (c, r1) =>
      match utf8DecodeAux fuel r1 with
      | none => none
      | some s => some (c :: s)

/-- Python's `str(b, "utf8")`: strict UTF-8 decode of a byte string. -/
def utf8Decode (l : List Nat) : Option (List Nat) :=
  utf8DecodeAux l.length l

theorem utf8DecodeOne_length {l : List Nat} {c : Nat} {r : List Nat}
    (h : utf8DecodeOne l = some (c, r)) : r.length < l.length := by
  match l with
  | [] => simp [utf8DecodeOne] at h
  | b :: t =>
    unfold utf8DecodeOne at h
    by_cases h1 : b < 128
    · simp [h1] at h
      obtain ⟨-, h⟩ := h
      simp [← h]
    · by_cases h2 : 194 ≤ b ∧ b ≤ 223
      · simp [h1, h2] at h
        match t with
        | [] => simp at h
        | b1 :: r1 =>
          simp at h
          obtain ⟨-, -, h⟩ := h
          subst h
          simp
          omega
      · by_cases h3 : 224 ≤ b ∧ b ≤ 239
        · simp [h1, h2, h3] at h
          match t with
          | [] => simp at h
          | [b1] => simp at h
          | b1 :: b2 :: r2 =>
            simp at h
            obtain ⟨-, -, h⟩ := h
            subst h
            simp
            omega
        · by_cases h4 : 240 ≤ b ∧ b ≤ 244
          · simp [h1, h2, h3, h4] at h
            match t with
            | [] => simp at h
            | [b1] => simp at h
            | [b1, b2] => simp at h
            | b1 :: b2 :: b3 :: r3 =>
              simp at h
              obtain ⟨-, -, h⟩ := h
              subst h
              simp
              omega
          · simp [h1, h2, h3, h4] at h

theorem utf8DecodeAux_fuel (f1 : Nat) : ∀ (f2 : Nat) (l : List Nat),
    l.length ≤ f1 → l.length ≤ f2 → utf8DecodeAux f1 l = utf8DecodeAux f2 l := by
  induction f1 with
  | zero =>
    intro f2 l h1 _
    have : l = [] := List.eq_nil_of_length_eq_zero (Nat.le_zero.mp h1)
    subst this
    cases f2 <;> simp [utf8DecodeAux]
  | succ f ih =>
    intro f2 l h1 h2
    match l with
    | [] => cases f2 <;> simp [utf8DecodeAux]
    | b :: r =>
      match f2 with
      | 0 => simp at h2
      | g + 1 =>
        simp only [utf8DecodeAux]
        match hd : utf8DecodeOne (b :: r) with
        | none => simp
        | some (c, r1) =>
          have hl := utf8DecodeOne_length hd
          simp at h1 h2 hl
          dsimp only
          rw [ih g r1 (by omega) (by omega)]

theorem utf8DecodeOne_encodeChar (c : Nat) (h : ValidCp c) (r : List Nat) :
    utf8DecodeOne (utf8EncodeChar c ++ r) = some (c, r) := by
  obtain ⟨hv, hs⟩ := h
  rcases Nat.lt_or_ge c 128 with hc1 | hc1
  · have e1 : utf8EncodeChar c = [c] := by simp [utf8EncodeChar, hc1]
    rw [e1]
    simp [utf8DecodeOne, hc1]
  · rcases Nat.lt_or_ge c 2048 with hc2 | hc2
    · have e1 : utf8EncodeChar c = [192 + c / 64, 128 + c % 64] := by
        rw [utf8EncodeChar, if_neg (by omega), if_pos hc2]
      rw [e1]
      show utf8DecodeOne ((192 + c / 64) :: (128 + c % 64) :: r) = _
      rw [utf8DecodeOne]
      rw [if_neg (by omega), if_pos (by omega), if_pos (by omega)]
      have : (192 + c / 64 - 192) * 64 + (128 + c % 64 - 128) = c := by omega
      rw [this]
    · rcases Nat.lt_or_ge c 65536 with hc3 | hc3
      · have e1 : utf8EncodeChar c = [224 + c / 4096, 128 + c / 64 % 64, 128 + c % 64] := by
          rw [utf8EncodeChar, if_neg (by omega), if_neg (by omega), if_pos hc3]
        rw [e1]
        show utf8DecodeOne ((224 + c / 4096) :: (128 + c / 64 % 64) :: (128 + c % 64) :: r) = _
        rw [utf8DecodeOne]
        rw [if_neg (by omega), if_neg (by omega), if_pos (by omega)]
        dsimp only
        rw [if_pos (by refine ⟨by omega, by omega, ?_, ?_⟩ <;> intro hb <;> omega)]
        have : (224 + c / 4096 - 224) * 4096 + (128 + c / 64 % 64 - 128) * 64
            + (128 + c % 64 - 128) = c := by omega
        rw [this]
      · have e1 : utf8EncodeChar c
            = [240 + c / 262144, 128 + c / 4096 % 64, 128 + c / 64 % 64, 128 + c % 64] := by
          rw [utf8EncodeChar, if_neg (by omega), if_neg (by omega), if_neg (by omega)]
        rw [e1]
        show utf8DecodeOne
            ((240 + c / 262144) :: (128 + c / 4096 % 64) :: (128 + c / 64 % 64) :: (128 + c % 64) :: r) = _
        rw [utf8DecodeOne]
        rw [if_neg (by omega), if_neg (by omega), if_neg (by omega), if_pos (by omega)]
        dsimp only
        rw [if_pos (by refine ⟨by omega, by omega, by omega, ?_, ?_⟩ <;> intro hb <;> omega)]
        have : (240 + c / 262144 - 240) * 262144 + (128 + c / 4096 % 64 - 128) * 4096
            + (128 + c / 64 % 64 - 128) * 64 + (128 + c % 64 - 128) = c := by omega
        rw [this]

theorem utf8EncodeChar_ne_nil (c : Nat) : utf8EncodeChar c ≠ [] := by
  unfold utf8EncodeChar
  split
  · simp
  · split
    · simp
    · split <;> simp

theorem utf8Decode_encode (s : List Nat) (h : ∀ c ∈ s, ValidCp c) :
    utf8Decode (utf8Encode s) = some s := by
  induction s with
  | nil => simp [utf8Encode, utf8Decode, utf8DecodeAux]
  | cons c cs ih =>
    have hc := h c (by simp)
    have hrest : ∀ x ∈ cs, ValidCp x := fun x hx => h x (by simp [hx])
    have henc : utf8Encode (c :: cs) = utf8EncodeChar c ++ utf8Encode cs := by
      simp [utf8Encode]
    rw [utf8Decode, henc]
    match hne : utf8EncodeChar c, utf8EncodeChar_ne_nil c with
    | b :: eb, _ =>
      have hdec : utf8DecodeOne ((b :: eb) ++ utf8Encode cs) = some (c, utf8Encode cs) := by
        rw [← hne]
        exact utf8DecodeOne_encodeChar c hc _
      simp only [List.cons_append, List.length_cons]
      rw [utf8DecodeAux]
      simp only [← List.cons_append, hdec]
      rw [utf8DecodeAux_fuel _ (utf8Encode cs).length _ (by simp) (by omega)]
      rw [← utf8Decode, ih hrest]

/-- PyboardCommand.wr_str: UTF-8 encode, then signed 32-bit length followed
by the encoded bytes (identical to wr_bytes on the encoding). -/
def wr_str (s : List Nat) : Except HostEx (List Nat) :=
  match utf8EncodeValid s with
  | none => .error .unicodeErr
  | some b => wr_bytes b

/-- PyboardCommand.rd_str: read a signed 32-bit length n; zero yields the
empty string without reading further; a positive n reads n bytes and
decodes them as UTF-8; a negative n makes the serial read return no bytes,
decoding to the empty string. -/
def rd_str (l : List Nat) : Except HostEx (List Nat × List Nat) :=
  match rd_s32 l with
  | none => .error .structErr
  | some (n, r) =>
    if n = 0 then .ok ([], r)
    else if n < 0 then .ok ([], r)
    else if (r.length : Int) < n then .error .structErr
    else
      match utf8Decode (r.take n.toNat) with
      | none => .error .unicodeErr
      | some s => .ok (s, r.drop n.toNat)

theorem rd_s32_u32bytes (n : Nat) (h : n < 4294967296) (r : List Nat) :
    rd_s32 (u32bytes n ++ r) = some (toS32 n, r) := by
  show rd_s32 ((n % 256) :: (n / 256 % 256) :: (n / 65536 % 256) :: (n / 16777216 % 256) :: r)
      = some (toS32 n, r)
  rw [rd_s32]
  have : n % 256 + 256 * (n / 256 % 256) + 65536 * (n / 65536 % 256)
      + 16777216 * (n / 16777216 % 256) = n := by omega
  rw [this]

theorem wr_s32_ofNat (n : Nat) (h : n < 2147483648) :
    wr_s32 (n : Int) = .ok (u32bytes n) := by
  rw [wr_s32, if_pos (by constructor <;> omega)]
  congr 1
  have : ((n : Int) % 4294967296) = (n : Int) := by omega
  rw [this]
  simp

theorem utf8Encode_ne_nil {s : List Nat} (h : s ≠ []) : utf8Encode s ≠ [] := by
  match s with
  | [] => exact absurd rfl h
  | c :: cs =>
    have : utf8Encode (c :: cs) = utf8EncodeChar c ++ utf8Encode cs := by simp [utf8Encode]
    rw [this]
    simp [utf8EncodeChar_ne_nil c]

theorem wr_bytes_ok (b : List Nat) (h : b.length < 2147483648) :
    wr_bytes b = .ok (u32bytes b.length ++ b) := by
  rw [wr_bytes, wr_s32_ofNat _ h]
  rfl

theorem wr_str_ok (s : List Nat) (h : ∀ c ∈ s, ValidCp c)
    (hlen : (utf8Encode s).length < 2147483648) :
    wr_str s = .ok (u32bytes (utf8Encode s).length ++ utf8Encode s) := by
  rw [wr_str, utf8EncodeValid, if_pos h]
  exact wr_bytes_ok _ hlen

/-- C4: wr_str then rd_str is the identity on every string of valid code
points (UTF-8 multibyte included, empty string included) whose encoding
fits a signed 32-bit length, and a zero length field decodes to the empty
string. -/
theorem str_roundtrip (s : List Nat) (h : ∀ c ∈ s, ValidCp c)
    (hlen : (utf8Encode s).length < 2147483648) :
    wr_str s = .ok (u32bytes (utf8Encode s).length ++ utf8Encode s)
    ∧ rd_str (u32bytes (utf8Encode s).length ++ utf8Encode s) = .ok (s, [])
    ∧ rd_str [0, 0, 0, 0] = .ok ([], []) := by
  refine ⟨wr_str_ok s h hlen, ?_, by rfl⟩
  · rw [rd_str, rd_s32_u32bytes _ (by omega)]
    rw [toS32, if_pos (by omega)]
    by_cases hs : s = []
    · subst hs
      simp [utf8Encode]
    · have hne : utf8Encode s ≠ [] := utf8Encode_ne_nil hs
      have hpos : 0 < (utf8Encode s).length := List.length_pos.mpr hne
      dsimp only
      rw [if_neg (by omega), if_neg (by omega), if_neg (by omega)]
      have ht : (((utf8Encode s).length : Int)).toNat = (utf8Encode s).length := by omega
      rw [ht, List.take_length, utf8Decode_encode s h, List.drop_length]

theorem str_roundtrip_witness :
    (∀ c ∈ [72, 8364, 128512], ValidCp c)
    ∧ (utf8Encode [72, 8364, 128512]).length < 2147483648
    ∧ wr_str [72, 8364, 128512]
        = .ok (u32bytes (utf8Encode [72, 8364, 128512]).length ++ utf8Encode [72, 8364, 128512])
    ∧ rd_str (u32bytes (utf8Encode [72, 8364, 128512]).length ++ utf8Encode [72, 8364, 128512])
        = .ok ([72, 8364, 128512], []) :=
  ⟨by decide, by decide, (str_roundtrip [72, 8364, 128512] (by decide) (by decide)).1,
    (str_roundtrip [72, 8364, 128512] (by decide) (by decide)).2.1⟩

/-- Result of a successful os.stat on the host, with the time fields
already truncated to integers as the source does. -/
structure StatR where
  mode : Nat
  size : Nat
  atime : Nat
  mtime : Nat
  ctime : Nat
deriving DecidableEq

/-- PyboardCommand.do_stat: the host stat call is an oracle parameter;
an OSError is caught and encoded as the s8 status -abs(errno), a success
writes status 0 and five u32 fields. -/
def do_stat (hostStat : Except Int StatR) : Except HostEx (List Nat) :=
  match hostStat with
  | .error e => wr_s8 (-(e.natAbs : Int))
  | .ok st => do
      let b0 ← wr_s8 0
      let b1 ← wr_u32 st.mode
      let b2 ← wr_u32 st.size
      let b3 ← wr_u32 st.atime
      let b4 ← wr_u32 st.mtime
      let b5 ← wr_u32 st.ctime
      .ok (b0 ++ b1 ++ b2 ++ b3 ++ b4 ++ b5)

/-- Allocation step of PyboardCommand.do_open on the table of open files:
`data_files.index(None)` finds the lowest vacated slot and refills it;
when there is none (`ValueError`), the table is extended by one.  Returns
the chosen descriptor and the updated table. -/
def openSlot {β : Type} : List (Option β) → β → Nat × List (Option β)
  | [], f => (0, [some f])
  | none :: rest, f => (0, some f :: rest)
  | some g :: rest, f =>
    let p := openSlot rest f
    (p.1 + 1, some g :: p.2)

/-- PyboardCommand.do_open: a caught OSError is encoded as s8 -abs(errno)
with the table untouched; on success the text flag is the absence of a
'b' (byte 98) in the mode string, the file is stored by openSlot, and the
descriptor is written as an s8 (raising struct.error past 127). -/
def do_open {β : Type} (hostOpen : Except Int β) (mode : List Nat)
    (tbl : List (Option (β × Bool))) :
    Except HostEx (List Nat × List (Option (β × Bool))) :=
  match hostOpen with
  | .error e => (wr_s8 (-(e.natAbs : Int))).map (fun b => (b, tbl))
  | .ok f =>
    let is_text := !(mode.contains 98)
    let p := openSlot tbl (f, is_text)
    (wr_s8 (p.1 : Int)).map (fun b => (b, p.2))

/-- PyboardCommand.do_close: closes the host file (an OSError here is not
caught) and vacates the slot; nothing is written to the wire. -/
def do_close {β : Type} (fd : Nat) (hostClose : Except Int Unit)
    (tbl : List (Option (β × Bool))) :
    Except HostEx (List Nat × List (Option (β × Bool))) :=
  match hostClose with
  | .error e => .error (.osErr e)
  | .ok _ => .ok ([], tbl.set fd none)

/-- Dynamically typed value returned by a host file read or written to a
host file: a str (code points) in text mode, bytes in binary mode. -/
inductive PyData
  | str (s : List Nat)
  | bytes (b : List Nat)
deriving DecidableEq

/-- PyboardCommand.do_read: the host read is an oracle; an OSError is NOT
caught.  In text mode the str result is encoded to UTF-8 bytes; either way
the reply is the length-prefixed buffer via wr_bytes. -/
def do_read (is_text : Bool) (hostRead : Except Int PyData) :
    Except HostEx (List Nat) :=
  match hostRead with
  | .error e => .error (.osErr e)
  | .ok d =>
    let conv : Except HostEx (List Nat) :=
      if is_text then
        match d with
        | .str s =>
          match utf8EncodeValid s with
          | some b => .ok b
          | none => .error .unicodeErr
        | .bytes _ => .error .typeErr
      else
        match d with
        | .bytes b => .ok b
        | .str _ => .error .typeErr
    do
      let buf ← conv
      wr_bytes buf

/-- PyboardCommand.do_write: in text mode the received bytes are first
decoded as UTF-8 into a str; the converted value is what is written to the
host file (returned as the second component); an OSError from the host
write is NOT caught; the reply is the s32 count returned by the write. -/
def do_write (is_text : Bool) (buf : List Nat) (hostWrite : Except Int Int) :
    Except HostEx (List Nat × PyData) :=
  let conv : Except HostEx PyData :=
    if is_text then
      match utf8Decode buf with
      | some s => .ok (.str s)
      | none => .error .unicodeErr
    else .ok (.bytes buf)
  match conv with
  | .error x => .error x
  | .ok v =>
    match hostWrite with
    | .error e => .error (.osErr e)
    | .ok n => (wr_s32 n).map (fun b => (b, v))

/-- PyboardCommand.do_seek: seeks the host file (an OSError is NOT caught)
and echoes the requested offset back as an s32. -/
def do_seek (n : Int) (hostSeek : Except Int Unit) : Except HostEx (List Nat) :=
  match hostSeek with
  | .error e => .error (.osErr e)
  | .ok _ => wr_s32 n

/-- PyboardCommand.do_remove: a caught OSError is encoded as the s32
status -abs(errno), success as status 0. -/
def do_remove (hostRemove : Except Int Unit) : Except HostEx (List Nat) :=
  match hostRemove with
  | .error e => wr_s32 (-(e.natAbs : Int))
  | .ok _ => wr_s32 0

/-- PyboardCommand.do_rename: same error convention as do_remove. -/
def do_rename (hostRename : Except Int Unit) : Except HostEx (List Nat) :=
  match hostRename with
  | .error e => wr_s32 (-(e.natAbs : Int))
  | .ok _ => wr_s32 0

/-- PyboardCommand.data_ilistdir: the base path and the remaining
(not yet emitted) entries of the one directory iteration context. -/
structure IlState where
  path : List Nat
  entries : List (List Nat)
deriving DecidableEq

/-- PyboardCommand.do_ilistdir_start: records root + requested path and
the host listdir result, discarding any previous iteration state; an
OSError from os.listdir is NOT caught. -/
def do_ilistdir_start (root rel : List Nat)
    (hostListdir : Except Int (List (List Nat))) (_prev : IlState) :
    Except HostEx IlState :=
  match hostListdir with
  | .error e => .error (.osErr e)
  | .ok names => .ok { path := root ++ rel, entries := names }

/-- PyboardCommand.do_ilistdir_next: pops the next recorded entry, stats
path/"/"/entry on the host (OSError NOT caught) and writes the name then
(st_mode & 0xC000) as a u32; when the entries are exhausted it writes the
empty string and nothing else. -/
def do_ilistdir_next (hostStatMode : List Nat → Except Int Nat) (st : IlState) :
    Except HostEx (List Nat × IlState) :=
  match st.entries with
  | [] => (wr_str []).map (fun b => (b, st))
  | e :: rest =>
    match hostStatMode (st.path ++ [47] ++ e) with
    | .error er => .error (.osErr er)
    | .ok mode => do
        let bs ← wr_str e
        let bt ← wr_u32 (mode &&& 49152)
        .ok (bs ++ bt, { path := st.path, entries := rest })

/-- Iterated CMD_ILISTDIR_NEXT: the outputs of k successive calls and the
final iteration state. -/
def ilNexts (hostStatMode : List Nat → Except Int Nat) :
    Nat → IlState → Except HostEx (List (List Nat) × IlState)
  | 0, st => .ok ([], st)
  | k + 1, st => do
      let p ← do_ilistdir_next hostStatMode st
      let q ← ilNexts hostStatMode k p.2
      .ok (p.1 :: q.1, q.2)

/-- Number of payload bytes a length-prefixed field (rd_str / rd_bytes)
consumes from the stream: the four length bytes plus, for a nonnegative
length n, n payload bytes (`none` when the stream is too short to supply
them); a negative n makes the serial read return nothing, so only the four
length bytes are consumed. -/
def lenField (l : List Nat) : Option Nat :=
  match rd_s32 l with
  | none => none
  | some (n, r) =>
    if n < 0 then some 4
    else if (r.length : Int) < n then none
    else some (4 + n.toNat)

/-- Number of request-payload bytes the PyboardCommand handler for command
id `cmd` reads from the serial stream `l` that follows the id byte, per
the rd_* calls of each do_* method (1 STAT: str; 2 ILISTDIR_START: str;
3 ILISTDIR_NEXT: nothing; 4 OPEN: str str; 5 CLOSE: s8; 6 READ: s8 s32;
7 WRITE: s8 bytes; 8 SEEK: s8 s32; 9 REMOVE: str; 10 RENAME: str str);
`none` for an unknown id (KeyError) or a stream too short for the frame. -/
def reqLen (cmd : Nat) (l : List Nat) : Option Nat :=
  if cmd = 1 ∨ cmd = 2 ∨ cmd = 9 then lenField l
  else if cmd = 3 then some 0
  else if cmd = 5 then (match l with | [] => none | _ :: _ => some 1)
  else if cmd = 6 ∨ cmd = 8 then (if l.length < 5 then none else some 5)
  else if cmd = 7 then
    (match l with
     | [] => none
     | _ :: r => (lenField r).map (· + 1))
  else if cmd = 4 ∨ cmd = 10 then
    (match lenField l with
     | none => none
     | some k =>
       match lenField (l.drop k) with
       | none => none
       | some k2 => some (k + k2))
  else none

/-- SerialIntercept._check_input, iterated over a whole incoming stream
(fuel-bounded; fuel at least the stream length suffices).  A 0x18 byte
diverts the following command id and that command's owed request bytes to
the RPC server; with VT processing disabled an ESC (0x1b) starts CSI
stripping, consuming `[` plus bytes up to a final byte strictly between
0x40 and 0x7E; every other byte is appended to the consumer buffer.  The
returned list is the stream of bytes delivered to the consumer; a stream
ending inside a frame or escape (a blocked or failing serial read) ends
the run. -/
def csiFinal (b : Nat) : Bool :=
  decide (64 < b ∧ b < 126)

def interceptAux (vt : Bool) : Nat → List Nat → List Nat
  | _, [] => []
  | 0, _ :: _ => []
  | fuel + 1, c :: rest =>
    if c = 24 then
      match rest with
      | [] => []
      | cmd :: rest2 =>
        match reqLen cmd rest2 with
        | some k => interceptAux vt fuel (rest2.drop k)
        | none => []
    else if vt = false ∧ c = 27 then
      match rest with
      | [] => []
      | e :: rest2 =>
        if e = 91 then
          interceptAux vt fuel ((rest2.dropWhile fun b => !(csiFinal b)).drop 1)
        else interceptAux vt fuel rest2
    else c :: interceptAux vt fuel rest

/-- Consumer output of the SerialIntercept read path on a whole incoming
byte stream. -/
def intercept (vt : Bool) (l : List Nat) : List Nat :=
  interceptAux vt l.length l

/-- Complete RPC frame: the 0x18 escape, a command id, and exactly the
request bytes the command's handler owes the stream. -/
def validFrame (f : List Nat) : Bool :=
  match f with
  | c :: cmd :: p => c == 24 && (reqLen cmd p == some p.length)
  | _ => false

theorem rd_s32_append {l : List Nat} {n : Int} {t : List Nat} (r : List Nat)
    (h : rd_s32 l = some (n, t)) : rd_s32 (l ++ r) = some (n, t ++ r) := by
  match l with
  | [] => simp [rd_s32] at h
  | [b0] => simp [rd_s32] at h
  | [b0, b1] => simp [rd_s32] at h
  | [b0, b1, b2] => simp [rd_s32] at h
  | b0 :: b1 :: b2 :: b3 :: tt =>
    simp [rd_s32] at h
    obtain ⟨h1, h2⟩ := h
    subst h1
    subst h2
    simp [rd_s32]

theorem rd_s32_length {l : List Nat} {n : Int} {t : List Nat}
    (h : rd_s32 l = some (n, t)) : l.length = 4 + t.length := by
  match l with
  | [] => simp [rd_s32] at h
  | [b0] => simp [rd_s32] at h
  | [b0, b1] => simp [rd_s32] at h
  | [b0, b1, b2] => simp [rd_s32] at h
  | b0 :: b1 :: b2 :: b3 :: tt =>
    simp [rd_s32] at h
    obtain ⟨-, h2⟩ := h
    subst h2
    simp
    omega

theorem lenField_le {l : List Nat} {k : Nat} (h : lenField l = some k) :
    k ≤ l.length := by
  unfold lenField at h
  match hr : rd_s32 l with
  | none => rw [hr] at h; simp at h
  | some (n, t) =>
    rw [hr] at h
    dsimp only at h
    have hlen := rd_s32_length hr
    by_cases hn : n < 0
    · rw [if_pos hn] at h
      simp at h
      omega
    · rw [if_neg hn] at h
      by_cases hs : (t.length : Int) < n
      · rw [if_pos hs] at h; simp at h
      · rw [if_neg hs] at h
        simp at h
        omega

theorem lenField_ext {l : List Nat} {k : Nat} (r : List Nat)
    (h : lenField l = some k) : lenField (l ++ r) = some k := by
  unfold lenField at h ⊢
  match hr : rd_s32 l with
  | none => rw [hr] at h; simp at h
  | some (n, t) =>
    rw [hr] at h
    rw [rd_s32_append r hr]
    dsimp only at h ⊢
    by_cases hn : n < 0
    · rw [if_pos hn] at h ⊢; exact h
    · rw [if_neg hn] at h ⊢
      by_cases hs : (t.length : Int) < n
      · rw [if_pos hs] at h; simp at h
      · rw [if_neg hs] at h
        rw [if_neg (by rw [List.length_append]; push_cast; omega)]
        exact h

theorem reqLen_le {cmd : Nat} {l : List Nat} {k : Nat} (h : reqLen cmd l = some k) :
    k ≤ l.length := by
  unfold reqLen at h
  split_ifs at h with h1 h2 h3 h4 h5 h6 h7
  · exact lenField_le h
  · simp at h; omega
  · match l, h with
    | [], h => simp at h
    | _ :: _, h => simp at h; simp; omega
  · simp at h; omega
  · match l, h with
    | [], h => simp at h
    | _ :: r, h =>
      simp at h
      obtain ⟨k1, hk1, hk⟩ := h
      have := lenField_le hk1
      simp
      omega
  · match hk1 : lenField l with
    | none => rw [hk1] at h; simp at h
    | some k1 =>
      rw [hk1] at h
      dsimp only at h
      match hk2 : lenField (l.drop k1) with
      | none => rw [hk2] at h; simp at h
      | some k2 =>
        rw [hk2] at h
        simp at h
        have t1 := lenField_le hk1
        have t2 := lenField_le hk2
        simp [List.length_drop] at t2
        omega

theorem reqLen_ext {cmd : Nat} {l : List Nat} {k : Nat} (r : List Nat)
    (h : reqLen cmd l = some k) : reqLen cmd (l ++ r) = some k := by
  have hle := reqLen_le h
  unfold reqLen at h ⊢
  by_cases h1 : cmd = 1 ∨ cmd = 2 ∨ cmd = 9
  · rw [if_pos h1] at h ⊢
    exact lenField_ext r h
  · rw [if_neg h1] at h ⊢
    by_cases h2 : cmd = 3
    · rw [if_pos h2] at h ⊢
      exact h
    · rw [if_neg h2] at h ⊢
      by_cases h3 : cmd = 5
      · rw [if_pos h3] at h ⊢
        match l, h with
        | [], h => simp at h
        | _ :: _, h => simpa using h
      · rw [if_neg h3] at h ⊢
        by_cases h4 : cmd = 6 ∨ cmd = 8
        · rw [if_pos h4] at h ⊢
          split at h
          · simp at h
          · rw [if_neg (by rw [List.length_append]; omega)]
            exact h
        · rw [if_neg h4] at h ⊢
          by_cases h5 : cmd = 7
          · rw [if_pos h5] at h ⊢
            match l, h with
            | [], h => simp at h
            | b :: t, h =>
              simp at h
              obtain ⟨k1, hk1, hk⟩ := h
              show ((lenField (t ++ r)).map (· + 1)) = some k
              rw [lenField_ext r hk1]
              simp
              omega
          · rw [if_neg h5] at h ⊢
            by_cases h6 : cmd = 4 ∨ cmd = 10
            · rw [if_pos h6] at h ⊢
              match hk1 : lenField l with
              | none => rw [hk1] at h; simp at h
              | some k1 =>
                rw [hk1] at h
                rw [lenField_ext r hk1]
                dsimp only at h ⊢
                match hk2 : lenField (l.drop k1) with
                | none => rw [hk2] at h; simp at h
                | some k2 =>
                  rw [hk2] at h
                  rw [List.drop_append_of_le_length (lenField_le hk1)]
                  rw [lenField_ext r hk2]
                  exact h
            · rw [if_neg h6] at h
              simp at h

theorem dropWhile_length_le (p : Nat → Bool) (l : List Nat) :
    (l.dropWhile p).length ≤ l.length := by
  induction l with
  | nil => simp
  | cons a t ih =>
    rw [List.dropWhile_cons]
    by_cases hp : p a
    · simp only [if_pos hp]
      simp
      omega
    · simp [if_neg hp]

theorem interceptAux_fuel (vt : Bool) (f1 : Nat) : ∀ (f2 : Nat) (l : List Nat),
    l.length ≤ f1 → l.length ≤ f2 → interceptAux vt f1 l = interceptAux vt f2 l := by
  induction f1 with
  | zero =>
    intro f2 l h1 _
    have : l = [] := List.eq_nil_of_length_eq_zero (Nat.le_zero.mp h1)
    subst this
    cases f2 <;> simp [interceptAux]
  | succ f ih =>
    intro f2 l h1 h2
    match l with
    | [] => cases f2 <;> simp [interceptAux]
    | c :: rest =>
      match f2 with
      | 0 => simp at h2
      | g + 1 =>
        simp only [interceptAux]
        simp only [List.length_cons] at h1 h2
        by_cases hc : c = 24
        · simp only [if_pos hc]
          match rest with
          | [] => rfl
          | cmd :: rest2 =>
            dsimp only
            simp only [List.length_cons] at h1 h2
            match hk : reqLen cmd rest2 with
            | some k =>
              have hd : (rest2.drop k).length ≤ rest2.length := by
                simp [List.length_drop]
              exact ih g (rest2.drop k) (by omega) (by omega)
            | none => rfl
        · simp only [if_neg hc]
          by_cases he : vt = false ∧ c = 27
          · simp only [if_pos he]
            match rest with
            | [] => rfl
            | e :: rest2 =>
              dsimp only
              simp only [List.length_cons] at h1 h2
              by_cases h91 : e = 91
              · simp only [if_pos h91]
                have hd : ((rest2.dropWhile fun b => !(csiFinal b)).drop 1).length
                    ≤ rest2.length := by
                  have := dropWhile_length_le (fun b => !(csiFinal b)) rest2
                  simp [List.length_drop]
                  omega
                exact ih g _ (by omega) (by omega)
              · simp only [if_neg h91]
                exact ih g rest2 (by omega) (by omega)
          · simp only [if_neg he]
            rw [ih g rest (by omega) (by omega)]

/-- C1: Interceptor separation.  On a VT-enabled terminal, a stream with no
0x18 byte is delivered to the consumer verbatim and in order; a stream that
is a concatenation of complete RPC frames (0x18, a command id, the frame's
owed bytes) produces no consumer output at all. -/
theorem interceptor_separation (l : List Nat) (hl : ∀ b ∈ l, b ≠ 24)
    (fs : List (List Nat)) (hfs : ∀ f ∈ fs, validFrame f = true) (vt : Bool) :
    intercept true l = l ∧ intercept vt fs.flatten = [] := by
  constructor
  · unfold intercept
    induction l with
    | nil => simp [interceptAux]
    | cons c rest ih =>
      have hc : c ≠ 24 := hl c (by simp)
      show interceptAux true (rest.length + 1) (c :: rest) = c :: rest
      simp only [interceptAux]
      rw [if_neg hc, if_neg (by simp)]
      rw [ih (fun b hb => hl b (by simp [hb]))]
  · clear hl l
    induction fs with
    | nil => simp [intercept, interceptAux]
    | cons f fs1 ih =>
      have hf := hfs f (by simp)
      match f with
      | [] => simp [validFrame] at hf
      | [x] => simp [validFrame] at hf
      | c :: cmd :: p =>
        simp [validFrame] at hf
        obtain ⟨hc, hreq⟩ := hf
        subst hc
        have hext : reqLen cmd (p ++ fs1.flatten) = some p.length := reqLen_ext _ hreq
        show intercept vt ((24 :: cmd :: p) ++ fs1.flatten) = []
        unfold intercept
        simp only [List.cons_append, List.length_cons]
        rw [interceptAux]
        rw [if_pos rfl]
        rw [hext]
        dsimp only
        rw [List.drop_left]
        rw [interceptAux_fuel vt _ fs1.flatten.length _ (by simp [List.length_append]; omega) (by omega)]
        exact ih (fun g hg => hfs g (by simp [hg]))

theorem interceptor_separation_witness :
    (∀ b ∈ [104, 101, 108, 108, 111], b ≠ 24)
    ∧ (∀ f ∈ [[24, 3], [24, 5, 7], [24, 1, 2, 0, 0, 0, 65, 66]], validFrame f = true)
    ∧ intercept true [104, 101, 108, 108, 111] = [104, 101, 108, 108, 111]
    ∧ intercept true [[24, 3], [24, 5, 7], [24, 1, 2, 0, 0, 0, 65, 66]].flatten = [] :=
  ⟨by decide, by decide,
    (interceptor_separation [104, 101, 108, 108, 111] (by decide)
      [[24, 3], [24, 5, 7], [24, 1, 2, 0, 0, 0, 65, 66]] (by decide) true).1,
    (interceptor_separation [104, 101, 108, 108, 111] (by decide)
      [[24, 3], [24, 5, 7], [24, 1, 2, 0, 0, 0, 65, 66]] (by decide) true).2⟩

/-- Open-files table event: a successful host open storing a file value, or
a CMD_CLOSE of a descriptor. -/
inductive FEv (β : Type)
  | openF (f : β)
  | closeF (fd : Nat)
deriving DecidableEq

/-- One table transition of the RPC server: an open allocates via openSlot
and replies wr_s8(fd), which raises struct.error on the host for fd > 127
(`none`); a close of a slot that is not currently open raises on the host
(`none`), otherwise it vacates the slot. -/
def stepOp {β : Type} (tbl : List (Option β)) : FEv β → Option (List (Option β))
  | .openF f =>
    let p := openSlot tbl f
    if p.1 < 128 then some p.2 else none
  | .closeF fd =>
    match tbl[fd]? with
    | some (some _) => some (tbl.set fd none)
    | _ => none

/-- Run of the open/close part of an RPC session from a given table; `none`
once a host-side exception has killed the server. -/
def runOps {β : Type} : List (Option β) → List (FEv β) → Option (List (Option β))
  | tbl, [] => some tbl
  | tbl, e :: evs =>
    match stepOp tbl e with
    | none => none
    | some t => runOps t evs

theorem openSlot_spec {β : Type} (tbl : List (Option β)) (f : β) :
    (∀ j, j < (openSlot tbl f).1 → ∃ g, tbl[j]? = some (some g))
    ∧ ((openSlot tbl f).1 = tbl.length ∨ tbl[(openSlot tbl f).1]? = some none)
    ∧ ((openSlot tbl f).1 = tbl.length ↔ ∀ x ∈ tbl, x.isSome)
    ∧ (openSlot tbl f).2[(openSlot tbl f).1]? = some (some f)
    ∧ (∀ fd g, tbl[fd]? = some (some g) →
        (openSlot tbl f).1 ≠ fd ∧ (openSlot tbl f).2[fd]? = some (some g))
    ∧ (openSlot tbl f).2.length = max tbl.length ((openSlot tbl f).1 + 1) := by
  induction tbl with
  | nil =>
    refine ⟨by simp [openSlot], by simp [openSlot], by simp [openSlot], by simp [openSlot],
      ?_, by simp [openSlot]⟩
    intro fd g hg
    simp at hg
  | cons a rest ih =>
    match a with
    | none =>
      refine ⟨by simp [openSlot], by simp [openSlot], ?_, by simp [openSlot], ?_, by simp [openSlot]⟩
      · constructor
        · intro h0
          simp [openSlot] at h0
        · intro hall
          have := hall none (by simp)
          simp at this
      · intro fd g hg
        match fd with
        | 0 => simp at hg
        | fd1 + 1 =>
          simp at hg
          constructor
          · simp [openSlot]
          · simpa [openSlot] using hg
    | some b =>
      obtain ⟨ih1, ih2, ih3, ih4, ih5, ih6⟩ := ih
      have hfst : (openSlot (some b :: rest) f).1 = (openSlot rest f).1 + 1 := by
        simp [openSlot]
      have hsnd : (openSlot (some b :: rest) f).2 = some b :: (openSlot rest f).2 := by
        simp [openSlot]
      refine ⟨?_, ?_, ?_, ?_, ?_, ?_⟩
      · intro j hj
        rw [hfst] at hj
        match j with
        | 0 => exact ⟨b, by simp⟩
        | j1 + 1 =>
          have := ih1 j1 (by omega)
          simpa using this
      · rw [hfst]
        rcases ih2 with h | h
        · left; simp [h]
        · right; simpa using h
      · rw [hfst]
        simp only [List.length_cons]
        constructor
        · intro h0
          intro x hx
          simp at hx
          rcases hx with hx | hx
          · simp [hx]
          · exact ih3.mp (by omega) x hx
        · intro hall
          have : (openSlot rest f).1 = rest.length :=
            ih3.mpr (fun x hx => hall x (by simp [hx]))
          omega
      · rw [hfst, hsnd]
        simpa using ih4
      · intro fd g hg
        match fd with
        | 0 =>
          simp at hg
          subst hg
          rw [hfst, hsnd]
          constructor
          · omega
          · simp
        | fd1 + 1 =>
          simp at hg
          obtain ⟨hne, hget⟩ := ih5 fd1 g hg
          rw [hfst, hsnd]
          constructor
          · omega
          · simpa using hget
      · rw [hfst, hsnd]
        simp only [List.length_cons, ih6]
        omega

theorem stepOp_preserve {β : Type} {tbl t : List (Option β)} {e : FEv β} {fd : Nat} {g : β}
    (hg : tbl[fd]? = some (some g)) (hs : stepOp tbl e = some t)
    (hne : ∀ j, e = .closeF j → j ≠ fd) : t[fd]? = some (some g) := by
  match e with
  | .openF f =>
    unfold stepOp at hs
    dsimp only at hs
    split at hs
    · have ht : t = (openSlot tbl f).2 := by
        simpa using hs.symm
      subst ht
      exact ((openSlot_spec tbl f).2.2.2.2.1 fd g hg).2
    · simp at hs
  | .closeF j =>
    have hj : j ≠ fd := hne j rfl
    unfold stepOp at hs
    dsimp only at hs
    match htj : tbl[j]? with
    | some (some x) =>
      rw [htj] at hs
      dsimp only at hs
      have ht : t = tbl.set j none := by simpa using hs.symm
      subst ht
      rw [List.getElem?_set_ne hj]
      exact hg
    | some none => rw [htj] at hs; simp at hs
    | none => rw [htj] at hs; simp at hs

theorem runOps_preserve {β : Type} : ∀ (evs : List (FEv β)) (tbl t : List (Option β))
    (fd : Nat) (g : β), tbl[fd]? = some (some g) → (∀ j, FEv.closeF j ∈ evs → j ≠ fd) →
    runOps tbl evs = some t → t[fd]? = some (some g) := by
  intro evs
  induction evs with
  | nil =>
    intro tbl t fd g hg _ hr
    simp [runOps] at hr
    subst hr
    exact hg
  | cons e evs1 ih =>
    intro tbl t fd g hg hne hr
    unfold runOps at hr
    match hs : stepOp tbl e with
    | none => rw [hs] at hr; simp at hr
    | some t1 =>
      rw [hs] at hr
      have h1 : t1[fd]? = some (some g) :=
        stepOp_preserve hg hs (fun j hj => hne j (by simp [hj]))
      exact ih t1 t fd g h1 (fun j hj => hne j (by simp [hj])) hr

theorem runOps_bound {β : Type} : ∀ (evs : List (FEv β)) (tbl t : List (Option β)),
    tbl.length ≤ 128 → runOps tbl evs = some t → t.length ≤ 128 := by
  intro evs
  induction evs with
  | nil =>
    intro tbl t h hr
    simp [runOps] at hr
    subst hr
    exact h
  | cons e evs1 ih =>
    intro tbl t h hr
    unfold runOps at hr
    match hs : stepOp tbl e with
    | none => rw [hs] at hr; simp at hr
    | some t1 =>
      rw [hs] at hr
      refine ih t1 t ?_ hr
      match e with
      | .openF f =>
        unfold stepOp at hs
        dsimp only at hs
        split at hs
        · have ht : t1 = (openSlot tbl f).2 := by simpa using hs.symm
          subst ht
          rw [(openSlot_spec tbl f).2.2.2.2.2]
          omega
        · simp at hs
      | .closeF j =>
        unfold stepOp at hs
        dsimp only at hs
        match htj : tbl[j]? with
        | some (some x) =>
          rw [htj] at hs
          dsimp only at hs
          have ht : t1 = tbl.set j none := by simpa using hs.symm
          subst ht
          simpa using h
        | some none => rw [htj] at hs; simp at hs
        | none => rw [htj] at hs; simp at hs

theorem openSlot_countP {β : Type} (tbl : List (Option β)) (f : β) :
    (openSlot tbl f).2.countP (fun x => x.isSome)
      = tbl.countP (fun x => x.isSome) + 1 := by
  induction tbl with
  | nil => simp [openSlot, List.countP_cons]
  | cons a rest ih =>
    match a with
    | none => simp [openSlot, List.countP_cons]
    | some b =>
      have hsnd : (openSlot (some b :: rest) f).2 = some b :: (openSlot rest f).2 := by
        simp [openSlot]
      rw [hsnd, List.countP_cons, List.countP_cons, ih]
      omega

theorem openSlot_fst_le {β : Type} (tbl : List (Option β)) (f : β) :
    (openSlot tbl f).1 ≤ tbl.countP (fun x => x.isSome) := by
  induction tbl with
  | nil => simp [openSlot]
  | cons a rest ih =>
    match a with
    | none => simp [openSlot]
    | some b =>
      have hfst : (openSlot (some b :: rest) f).1 = (openSlot rest f).1 + 1 := by
        simp [openSlot]
      rw [hfst, List.countP_cons]
      simp
      omega

/-- C3: do_open always refills the lowest vacated slot (extending the table
exactly when no slot is vacant), the allocated descriptor addresses the
opened file, a descriptor that is currently open is never handed out again,
and through any further successful opens and closes that do not close this
descriptor, the slot keeps naming exactly the file opened under it (which
is the file do_read / do_write / do_seek address via data_files[fd]). -/
theorem descriptor_stability {β : Type} (tbl : List (Option β)) (f : β) :
    (∀ j, j < (openSlot tbl f).1 → ∃ g, tbl[j]? = some (some g))
    ∧ ((openSlot tbl f).1 = tbl.length ∨ tbl[(openSlot tbl f).1]? = some none)
    ∧ ((openSlot tbl f).1 = tbl.length ↔ ∀ x ∈ tbl, x.isSome)
    ∧ (openSlot tbl f).2[(openSlot tbl f).1]? = some (some f)
    ∧ (∀ fd g, tbl[fd]? = some (some g) → (openSlot tbl f).1 ≠ fd)
    ∧ (∀ evs t, (∀ j, FEv.closeF j ∈ evs → j ≠ (openSlot tbl f).1) →
        runOps (openSlot tbl f).2 evs = some t →
        t[(openSlot tbl f).1]? = some (some f)) := by
  obtain ⟨h1, h2, h3, h4, h5, _⟩ := openSlot_spec tbl f
  refine ⟨h1, h2, h3, h4, fun fd g hg => (h5 fd g hg).1, ?_⟩
  intro evs t hne hr
  exact runOps_preserve evs _ t _ f h4 hne hr

theorem descriptor_stability_witness :
    ((none : Option Nat) :: some 30 :: some 20 :: [some 40])[1]? = some (some 30) := by
  have h := (descriptor_stability ([some 10, none, some 20] : List (Option Nat)) 30).2.2.2.2.2
  have hfd : (openSlot ([some 10, none, some 20] : List (Option Nat)) 30).1 = 1 := by decide
  have hr : runOps (openSlot ([some 10, none, some 20] : List (Option Nat)) 30).2
      [FEv.openF 40, FEv.closeF 0] = some [none, some 30, some 20, some 40] := by decide
  have hres := h [FEv.openF 40, FEv.closeF 0] [none, some 30, some 20, some 40]
    (by
      intro j hj
      simp at hj
      subst hj
      rw [hfd]
      decide) hr
  rw [hfd] at hres
  exact hres

/-- C10: the server never refuses an open (every open adds an open file to
the table, with no bound), an open performed while fewer than 128 files are
open yields a descriptor in 0..127 that wr_s8 encodes, and in any session
reachable from an empty table a 129th concurrent open is assigned
descriptor 128, whose s8 reply raises struct.error on the host (do_open
fails host-side) instead of sending any status to the device. -/
theorem fd_overflow (β : Type) :
    (∀ (tbl : List (Option β)) (f : β),
      (openSlot tbl f).2.countP (fun x => x.isSome) = tbl.countP (fun x => x.isSome) + 1)
    ∧ (∀ (tbl : List (Option β)) (f : β),
        tbl.countP (fun x => x.isSome) < 128 →
        (openSlot tbl f).1 ≤ 127
          ∧ wr_s8 ((openSlot tbl f).1 : Int) = .ok [(openSlot tbl f).1])
    ∧ (∀ (evs : List (FEv (β × Bool))) (tbl : List (Option (β × Bool)))
        (f : β) (mode : List Nat),
        runOps [] evs = some tbl → tbl.countP (fun x => x.isSome) = 128 →
        (openSlot tbl (f, !(mode.contains 98))).1 = 128
          ∧ do_open (.ok f) mode tbl = .error .structErr) := by
  refine ⟨fun tbl f => openSlot_countP tbl f, ?_, ?_⟩
  · intro tbl f hcount
    have hle := openSlot_fst_le tbl f
    refine ⟨by omega, ?_⟩
    rw [wr_s8, if_pos (by constructor <;> omega)]
    have : (((openSlot tbl f).1 : Int) % 256).toNat = (openSlot tbl f).1 := by omega
    rw [this]
  · intro evs tbl f mode hrun hcount
    have hlen : tbl.length ≤ 128 := runOps_bound evs [] tbl (by simp) hrun
    have hcle : tbl.countP (fun x => x.isSome) ≤ tbl.length :=
      List.countP_le_length (fun (x : Option (β × Bool)) => x.isSome)
    have hleneq : tbl.length = 128 := by omega
    have hall : ∀ x ∈ tbl, x.isSome :=
      List.countP_eq_length.mp (hcount.trans hleneq.symm)
    have hfst : (openSlot tbl (f, !(mode.contains 98))).1 = tbl.length :=
      (openSlot_spec tbl (f, !(mode.contains 98))).2.2.1.mpr hall
    refine ⟨by omega, ?_⟩
    unfold do_open
    dsimp only
    have h128 : (openSlot tbl (f, !(mode.contains 98))).1 = 128 := by omega
    rw [h128]
    rw [wr_s8, if_neg (by omega)]
    rfl

set_option maxRecDepth 100000 in
theorem fd_overflow_witness :
    runOps ([] : List (Option (Nat × Bool))) (List.replicate 128 (FEv.openF (0, true)))
        = some (List.replicate 128 (some (0, true)))
    ∧ (List.replicate 128 (some ((0 : Nat), true))).countP (fun x => x.isSome) = 128
    ∧ (([] : List (Option Nat)).countP (fun x => x.isSome) < 128
        ∧ (openSlot ([] : List (Option Nat)) 7).1 ≤ 127)
    ∧ (openSlot (List.replicate 128 (some ((0 : Nat), true))) ((0 : Nat), !([114].contains 98))).1
        = 128
    ∧ do_open (.ok (0 : Nat)) [114] (List.replicate 128 (some (0, true)))
        = .error .structErr := by
  refine ⟨by decide, by decide, ⟨by decide, ((fd_overflow Nat).2.1 [] 7 (by decide)).1⟩, ?_, ?_⟩
  · exact ((fd_overflow Nat).2.2 (List.replicate 128 (FEv.openF (0, true)))
      (List.replicate 128 (some (0, true))) 0 [114] (by decide) (by decide)).1
  · exact ((fd_overflow Nat).2.2 (List.replicate 128 (FEv.openF (0, true)))
      (List.replicate 128 (some (0, true))) 0 [114] (by decide) (by decide)).2

/-- C2 counterexample: a host OSError (errno 5) raised during the host file
read of CMD_READ is not caught by the server: do_read propagates it on the
host side instead of encoding any status for the device. -/
theorem read_oserror_propagates :
    do_read false (.error 5) = .error (.osErr 5)
    ∧ ¬∃ b, do_read false (.error 5) = .ok b := by
  constructor
  · rfl
  · rintro ⟨b, hb⟩
    simp [do_read] at hb

/-- C2 (amended): only the four path operations do_stat, do_open, do_remove
and do_rename catch a host OSError with errno e and encode it on the wire
as -abs(e) (as a two's-complement s8 for stat/open, representable since
errnos stay below 128, and as an s32 for remove/rename), never raising it;
the other operations (do_close, do_read, do_write, do_seek,
do_ilistdir_start, do_ilistdir_next) do not catch it, so the OSError
propagates on the host side. -/
theorem rpc_error_encoding {β : Type} (e : Int) (he : 0 < e) (he8 : e ≤ 128)
    (tbl : List (Option (β × Bool))) (mode buf : List Nat) (fd : Nat)
    (is_text : Bool) (n : Int) (root rel : List Nat) (prev : IlState)
    (path entry : List Nat) (rest : List (List Nat)) :
    do_stat (.error e) = .ok [256 - e.toNat]
    ∧ do_open (.error e) mode tbl = .ok ([256 - e.toNat], tbl)
    ∧ do_remove (.error e) = .ok (u32bytes (4294967296 - e.toNat))
    ∧ do_rename (.error e) = .ok (u32bytes (4294967296 - e.toNat))
    ∧ do_close fd (.error e) tbl = .error (.osErr e)
    ∧ do_read is_text (.error e) = .error (.osErr e)
    ∧ do_write false buf (.error e) = .error (.osErr e)
    ∧ do_seek n (.error e) = .error (.osErr e)
    ∧ do_ilistdir_start root rel (.error e) prev = .error (.osErr e)
    ∧ do_ilistdir_next (fun _ => .error e) ⟨path, entry :: rest⟩
        = .error (.osErr e) := by
  have hs8 : wr_s8 (-(e.natAbs : Int)) = .ok [256 - e.toNat] := by
    rw [wr_s8, if_pos (by constructor <;> omega)]
    have : ((-(e.natAbs : Int)) % 256).toNat = 256 - e.toNat := by omega
    rw [this]
  have hs32 : wr_s32 (-(e.natAbs : Int)) = .ok (u32bytes (4294967296 - e.toNat)) := by
    rw [wr_s32, if_pos (by constructor <;> omega)]
    have : ((-(e.natAbs : Int)) % 4294967296).toNat = 4294967296 - e.toNat := by omega
    rw [this]
  refine ⟨hs8, ?_, hs32, hs32, rfl, rfl, rfl, rfl, rfl, rfl⟩
  show (wr_s8 (-(e.natAbs : Int))).map (fun b => (b, tbl)) = _
  rw [hs8]
  rfl

theorem rpc_error_encoding_witness :
    (0 : Int) < 2 ∧ (2 : Int) ≤ 128
    ∧ do_stat (.error 2) = .ok [256 - (2 : Int).toNat]
    ∧ do_read true (.error 2) = .error (.osErr 2) := by
  have h := rpc_error_encoding (β := Nat) 2 (by norm_num) (by norm_num)
    [] [] [] 0 true 0 [] [] ⟨[], []⟩ [] [] []
  exact ⟨by norm_num, by norm_num, h.1, h.2.2.2.2.2.1⟩

theorem wr_u32_mask (m : Nat) : wr_u32 (m &&& 49152) = .ok (u32bytes (m &&& 49152)) := by
  rw [wr_u32, if_pos]
  have h : m &&& 49152 ≤ 49152 := Nat.and_le_right
  omega

theorem bind_ok_eq {ε α β : Type} (x : α) (f : α → Except ε β) :
    ((Except.ok x : Except ε α) >>= f) = f x := rfl

theorem do_ilistdir_next_cons (statMode : List Nat → Nat) (path e : List Nat)
    (rest : List (List Nat)) (hval : ∀ c ∈ e, ValidCp c)
    (hlen : (utf8Encode e).length < 2147483648) :
    do_ilistdir_next (fun p => .ok (statMode p)) ⟨path, e :: rest⟩
      = .ok (u32bytes (utf8Encode e).length ++ utf8Encode e
          ++ u32bytes (statMode (path ++ [47] ++ e) &&& 49152), ⟨path, rest⟩) := by
  show (wr_str e >>= fun bs =>
      wr_u32 (statMode (path ++ [47] ++ e) &&& 49152) >>= fun bt =>
      (Except.ok (bs ++ bt, ({ path := path, entries := rest } : IlState))
        : Except HostEx (List Nat × IlState))) = _
  rw [wr_str_ok e hval hlen, bind_ok_eq]
  rw [wr_u32_mask, bind_ok_eq]

theorem ilNexts_spec (statMode : List Nat → Nat) (path : List Nat) :
    ∀ (k : Nat) (entries : List (List Nat)),
    (∀ e ∈ entries, (∀ c ∈ e, ValidCp c) ∧ (utf8Encode e).length < 2147483648) →
    k ≤ entries.length →
    ilNexts (fun p => .ok (statMode p)) k ⟨path, entries⟩
      = .ok ((entries.take k).map (fun e =>
          u32bytes (utf8Encode e).length ++ utf8Encode e
            ++ u32bytes (statMode (path ++ [47] ++ e) &&& 49152)),
          ⟨path, entries.drop k⟩) := by
  intro k
  induction k with
  | zero =>
    intro entries _ _
    simp [ilNexts]
  | succ k1 ih =>
    intro entries hv hk
    match entries with
    | [] => simp at hk
    | e :: rest =>
      obtain ⟨hval, hlen⟩ := hv e (by simp)
      have hnext := do_ilistdir_next_cons statMode path e rest hval hlen
      have hk1 : k1 ≤ rest.length := by
        simp at hk
        omega
      show (do_ilistdir_next (fun p => .ok (statMode p)) ⟨path, e :: rest⟩ >>= fun p =>
          ilNexts (fun p => .ok (statMode p)) k1 p.2 >>= fun q =>
          (Except.ok (p.1 :: q.1, q.2) : Except HostEx (List (List Nat) × IlState))) = _
      rw [hnext, bind_ok_eq]
      dsimp only
      rw [ih rest (fun x hx => hv x (by simp [hx])) hk1, bind_ok_eq]
      dsimp only
      simp

/-- C5: CMD_ILISTDIR_START records the host's native listdir sequence for
root+path, replacing any previous iteration state (so a new START resets
the iteration); the k successive CMD_ILISTDIR_NEXT replies emit the
recorded entries in that order, each as the name followed by
(st_mode & 0xC000) as a u32 type field; after the entries are exhausted,
NEXT emits the empty string (a zero s32 length) with no type field. -/
theorem ilistdir_protocol (root rel : List Nat) (entries : List (List Nat))
    (statMode : List Nat → Nat) (prev : IlState)
    (hv : ∀ e ∈ entries, (∀ c ∈ e, ValidCp c) ∧ (utf8Encode e).length < 2147483648) :
    do_ilistdir_start root rel (.ok entries) prev = .ok ⟨root ++ rel, entries⟩
    ∧ (∀ k, k ≤ entries.length →
        ilNexts (fun p => .ok (statMode p)) k ⟨root ++ rel, entries⟩
          = .ok ((entries.take k).map (fun e =>
              u32bytes (utf8Encode e).length ++ utf8Encode e
                ++ u32bytes (statMode ((root ++ rel) ++ [47] ++ e) &&& 49152)),
              ⟨root ++ rel, entries.drop k⟩))
    ∧ (∀ path, do_ilistdir_next (fun p => .ok (statMode p)) ⟨path, []⟩
        = .ok ([0, 0, 0, 0], ⟨path, []⟩)) := by
  refine ⟨rfl, ?_, fun path => rfl⟩
  intro k hk
  exact ilNexts_spec statMode (root ++ rel) k entries hv hk

theorem ilistdir_protocol_witness :
    (∀ e ∈ [[97], [98]], (∀ c ∈ e, ValidCp c) ∧ (utf8Encode e).length < 2147483648)
    ∧ do_ilistdir_start [47, 114] [100] (.ok [[97], [98]]) ⟨[111], [[120]]⟩
        = .ok ⟨[47, 114, 100], [[97], [98]]⟩
    ∧ ilNexts (fun p => .ok p.length) 2 ⟨[47, 114, 100], [[97], [98]]⟩
        = .ok ([[1, 0, 0, 0, 97, 0, 0, 0, 0], [1, 0, 0, 0, 98, 0, 0, 0, 0]],
            ⟨[47, 114, 100], []⟩)
    ∧ do_ilistdir_next (fun p => .ok p.length) ⟨[47, 114, 100], []⟩
        = .ok ([0, 0, 0, 0], ⟨[47, 114, 100], []⟩) := by
  have h := ilistdir_protocol [47, 114] [100] [[97], [98]]
    (fun q => q.length) ⟨[111], [[120]]⟩ (by decide)
  exact ⟨by decide, h.1, h.2.1 2 (by decide), h.2.2 [47, 114, 100]⟩

theorem wr_s32_ok (n : Int) (h1 : -2147483648 ≤ n) (h2 : n < 2147483648) :
    wr_s32 n = .ok (u32bytes ((n % 4294967296).toNat)) := by
  rw [wr_s32, if_pos ⟨h1, h2⟩]

/-- C6: the text flag stored at OPEN is exactly the absence of 'b' in the
mode string; a text-mode READ replies with the UTF-8 encoding of the str
the host file returned, length-prefixed as bytes; a binary READ passes the
host bytes through unconverted; a text-mode WRITE first decodes the
received bytes as UTF-8 into a str and writes that to the host file; a
binary WRITE writes the received bytes unconverted. -/
theorem text_binary_modes {β : Type} (f : β) (mode s b payload : List Nat) (n : Int)
    (hs : ∀ c ∈ s, ValidCp c) (hslen : (utf8Encode s).length < 2147483648)
    (hblen : b.length < 2147483648) (t : List Nat) (hdec : utf8Decode payload = some t)
    (hn1 : -2147483648 ≤ n) (hn2 : n < 2147483648) :
    do_open (.ok f) mode [] = .ok ([0], [some (f, !(mode.contains 98))])
    ∧ do_read true (.ok (.str s)) = .ok (u32bytes (utf8Encode s).length ++ utf8Encode s)
    ∧ do_read false (.ok (.bytes b)) = .ok (u32bytes b.length ++ b)
    ∧ do_write true payload (.ok n) = .ok (u32bytes ((n % 4294967296).toNat), .str t)
    ∧ do_write false payload (.ok n)
        = .ok (u32bytes ((n % 4294967296).toNat), .bytes payload) := by
  have henc : utf8EncodeValid s = some (utf8Encode s) := by
    rw [utf8EncodeValid, if_pos hs]
  refine ⟨?_, ?_, ?_, ?_, ?_⟩
  · show (wr_s8 ((openSlot [] (f, !(mode.contains 98))).1 : Int)).map
        (fun bb => (bb, (openSlot [] (f, !(mode.contains 98))).2)) = _
    show (wr_s8 ((0 : Nat) : Int)).map
        (fun bb => (bb, [some (f, !(mode.contains 98))])) = _
    rw [wr_s8, if_pos (by constructor <;> omega)]
    rfl
  · show ((match utf8EncodeValid s with
        | some bb => (Except.ok bb : Except HostEx (List Nat))
        | none => Except.error HostEx.unicodeErr) >>= fun buf => wr_bytes buf) = _
    rw [henc]
    dsimp only
    rw [bind_ok_eq]
    exact wr_bytes_ok _ hslen
  · show ((Except.ok b : Except HostEx (List Nat)) >>= fun buf => wr_bytes buf) = _
    rw [bind_ok_eq]
    exact wr_bytes_ok _ hblen
  · show (match (match utf8Decode payload with
        | some w => (Except.ok (PyData.str w) : Except HostEx PyData)
        | none => Except.error HostEx.unicodeErr) with
      | Except.error x => (Except.error x : Except HostEx (List Nat × PyData))
      | Except.ok v => (wr_s32 n).map (fun bb => (bb, v))) = _
    rw [hdec]
    show (wr_s32 n).map (fun bb => (bb, PyData.str t)) = _
    rw [wr_s32_ok n hn1 hn2]
    rfl
  · show (wr_s32 n).map (fun bb => (bb, PyData.bytes payload)) = _
    rw [wr_s32_ok n hn1 hn2]
    rfl

theorem text_binary_modes_witness :
    (∀ c ∈ [8364], ValidCp c)
    ∧ utf8Decode [226, 130, 172] = some [8364]
    ∧ do_open (.ok (0 : Nat)) [114, 98] [] = .ok ([0], [some (0, false)])
    ∧ do_read true (.ok (.str [8364])) = .ok ([3, 0, 0, 0, 226, 130, 172])
    ∧ do_read false (.ok (.bytes [226, 130, 172])) = .ok ([3, 0, 0, 0, 226, 130, 172])
    ∧ do_write true [226, 130, 172] (.ok 3) = .ok ([3, 0, 0, 0], .str [8364])
    ∧ do_write false [226, 130, 172] (.ok 3) = .ok ([3, 0, 0, 0], .bytes [226, 130, 172]) := by
  have h := text_binary_modes (β := Nat) 0 [114, 98] [8364] [226, 130, 172] [226, 130, 172] 3
    (by decide) (by decide) (by decide) [8364] (by decide) (by decide) (by decide)
  refine ⟨by decide, by decide, ?_, ?_, ?_, ?_, ?_⟩
  · have h1 := h.1
    simpa using h1
  · have h2 := h.2.1
    simpa using h2
  · have h3 := h.2.2.1
    simpa using h3
  · have h4 := h.2.2.2.1
    simpa using h4
  · have h5 := h.2.2.2.2
    simpa using h5

/-- State of PyboardExtended.mount_local as seen from the host: the mounted
flag, whether the device globals already hold RemoteFS (the pushed
fs_hook_code defines class RemoteFS, so executing the bootstrap sets it),
how many times the bootstrap was pushed, the stack of SerialIntercept
wrappers installed on the read path (each holding the id of the
PyboardCommand it serves; mount_local wraps self.serial, which may itself
already be a SerialIntercept), and a counter naming the next PyboardCommand. -/
structure MountSession where
  mounted : Bool
  devHasRemoteFS : Bool
  bootstrapsSent : Nat
  interceptors : List Nat
  nextCmdId : Nat
deriving DecidableEq

/-- Textual reply b"False" of the eval probe. -/
def falseReply : List Nat := [70, 97, 108, 115, 101]

/-- Textual reply b"True" of the eval probe. -/
def trueReply : List Nat := [84, 114, 117, 101]

/-- Reply of `self.eval('"RemoteFS" in globals()')`: the device evaluates
whether RemoteFS is defined in its globals. -/
def evalRemoteFSProbe (devHasRemoteFS : Bool) : List Nat :=
  if devHasRemoteFS then trueReply else falseReply

/-- PyboardExtended.mount_local (single-port case): sets mounted, pushes the
bootstrap only when the probe reply equals b"False" (after which RemoteFS is
defined on the device), executes __mount, creates a new PyboardCommand and
wraps the current serial object in a new SerialIntercept. -/
def mount_local (s : MountSession) : MountSession :=
  let pushed := evalRemoteFSProbe s.devHasRemoteFS == falseReply
  { mounted := true
    devHasRemoteFS := true
    bootstrapsSent := s.bootstrapsSent + (if pushed then 1 else 0)
    interceptors := s.nextCmdId :: s.interceptors
    nextCmdId := s.nextCmdId + 1 }

/-- Session state before any mount: not mounted, device fresh, no
interceptor on the read path. -/
def freshSession : MountSession :=
  { mounted := false, devHasRemoteFS := false, bootstrapsSent := 0,
    interceptors := [], nextCmdId := 0 }

/-- Iterated mount_local. -/
def mountN : Nat → MountSession → MountSession
  | 0, s => s
  | n + 1, s => mount_local (mountN n s)

/-- C7 counterexample: mounting twice does not leave exactly one
Interceptor on the read path: the second mount_local wraps a second
SerialIntercept (with a second PyboardCommand) around the first. -/
theorem double_mount_two_interceptors :
    (mount_local (mount_local freshSession)).interceptors.length ≠ 1
    ∧ (mount_local (mount_local freshSession)).interceptors = [1, 0]
    ∧ (mount_local (mount_local freshSession)).bootstrapsSent = 1 := by
  decide

/-- C7 (amended): after n+1 calls to mount_local in one session the mounted
flag is a single true, but n+1 nested Interceptors (one per call, each with
its own PyboardCommand server) sit on the read path — two after a double
mount, not one; the bootstrap is pushed only when the probe reply is
b"False", hence exactly once per device session, at the first mount. -/
theorem mount_bootstrap_once (n : Nat) :
    (mountN (n + 1) freshSession).mounted = true
    ∧ (mountN (n + 1) freshSession).devHasRemoteFS = true
    ∧ (mountN (n + 1) freshSession).interceptors.length = n + 1
    ∧ (mountN (n + 1) freshSession).bootstrapsSent = 1
    ∧ (∀ s, (mount_local s).bootstrapsSent = s.bootstrapsSent
        + (if evalRemoteFSProbe s.devHasRemoteFS == falseReply then 1 else 0)) := by
  induction n with
  | zero => exact ⟨rfl, rfl, rfl, rfl, fun s => rfl⟩
  | succ m ih =>
    obtain ⟨h1, h2, h3, h4, h5⟩ := ih
    refine ⟨rfl, rfl, ?_, ?_, fun s => rfl⟩
    · show (mount_local (mountN (m + 1) freshSession)).interceptors.length = m + 1 + 1
      simp [mount_local]
      omega
    · show (mount_local (mountN (m + 1) freshSession)).bootstrapsSent = 1
      rw [h5 (mountN (m + 1) freshSession)]
      rw [h2, h4]
      rfl

/-- Flags of one runner command, from the cmds table of main:
mount (True, False), repl (False, True), eval/exec/run/fs (True, True). -/
structure CmdSpec where
  needRaw : Bool
  isAction : Bool
deriving DecidableEq

/-- Raw-mode events the runner can issue around a command. -/
inductive REv
  | enterRaw
  | exitRaw
  | runRepl
deriving DecidableEq

/-- Raw-mode management main performs before dispatching one command:
enter_raw_repl only when the command needs raw mode and in_raw_repl is
false, exit_raw_repl only when it does not need raw mode and in_raw_repl is
true; returns the events issued and the new in_raw_repl flag. -/
def stepCmd (raw : Bool) (c : CmdSpec) : List REv × Bool :=
  if c.needRaw then (if raw then [] else [.enterRaw], true)
  else (if raw then [.exitRaw] else [], false)

/-- The command loop of main over a parsed command sequence: the raw-mode
event trace, the final in_raw_repl flag, and whether any command was an
action (did_action). -/
def runCmds : Bool → List CmdSpec → List REv × Bool × Bool
  | raw, [] => ([], raw, false)
  | raw, c :: cs =>
    let p := stepCmd raw c
    let q := runCmds p.2 cs
    (p.1 ++ q.1, q.2.1, c.isAction || q.2.2)

/-- Whole runner: after the loop, if no command was an action, exit raw
mode if still in it and fall through to an implicit repl. -/
def mainRun (cmds : List CmdSpec) : List REv :=
  let q := runCmds false cmds
  if q.2.2 then q.1 else q.1 ++ (if q.2.1 then [REv.exitRaw] else []) ++ [REv.runRepl]

/-- Number of positions at which a boolean sequence differs from the
running previous value (boundaries where the raw-mode need changes). -/
def transitions : Bool → List Bool → Nat
  | _, [] => 0
  | r, b :: bs => (if b = r then 0 else 1) + transitions b bs

theorem runCmds_didAction (cmds : List CmdSpec) : ∀ raw,
    (runCmds raw cmds).2.2 = cmds.any (fun c => c.isAction) := by
  induction cmds with
  | nil => intro raw; simp [runCmds]
  | cons c cs ih =>
    intro raw
    show (c.isAction || (runCmds (stepCmd raw c).2 cs).2.2)
        = (c :: cs).any (fun c => c.isAction)
    rw [ih (stepCmd raw c).2]
    simp

/-- C8: raw-mode transitions happen only at boundaries where the need
changes — enter_raw_repl is issued exactly when the command needs raw mode
and the session is not in it, exit_raw_repl exactly when it does not need
raw mode and the session is in it, never redundantly (the trace length is
the number of need-changes along the sequence); and when no command in the
sequence is an action, the runner exits raw mode if needed and falls
through to an implicit repl. -/
theorem runner_raw_transitions (cmds : List CmdSpec) :
    (∀ raw c, (REv.enterRaw ∈ (stepCmd raw c).1 ↔ c.needRaw = true ∧ raw = false)
      ∧ (REv.exitRaw ∈ (stepCmd raw c).1 ↔ c.needRaw = false ∧ raw = true)
      ∧ (stepCmd raw c).2 = c.needRaw
      ∧ (stepCmd raw c).1.length = (if c.needRaw = raw then 0 else 1))
    ∧ (∀ raw, (runCmds raw cmds).1.length
        = transitions raw (cmds.map (fun c => c.needRaw)))
    ∧ ((∀ c ∈ cmds, c.isAction = false) →
        mainRun cmds = (runCmds false cmds).1
          ++ (if (runCmds false cmds).2.1 then [REv.exitRaw] else [])
          ++ [REv.runRepl]) := by
  refine ⟨?_, ?_, ?_⟩
  · intro raw c
    cases raw <;> cases hc : c.needRaw <;> simp [stepCmd, hc]
  · induction cmds with
    | nil => intro raw; simp [runCmds, transitions]
    | cons c cs ih =>
      intro raw
      show ((stepCmd raw c).1 ++ (runCmds (stepCmd raw c).2 cs).1).length = _
      rw [List.length_append]
      rw [ih (stepCmd raw c).2]
      show _ = (if c.needRaw = raw then 0 else 1) + transitions c.needRaw (cs.map fun c => c.needRaw)
      have hsnd : (stepCmd raw c).2 = c.needRaw := by
        cases hc : c.needRaw <;> simp [stepCmd, hc]
      have hlen : (stepCmd raw c).1.length = (if c.needRaw = raw then 0 else 1) := by
        cases raw <;> cases hc : c.needRaw <;> simp [stepCmd, hc]
      rw [hsnd, hlen]
  · intro hno
    have hact : (runCmds false cmds).2.2 = false := by
      rw [runCmds_didAction]
      simp only [List.any_eq_false]
      intro c hc
      simp [hno c hc]
    unfold mainRun
    dsimp only
    rw [hact]
    simp

theorem runner_raw_transitions_witness :
    (∀ c ∈ [({ needRaw := true, isAction := false } : CmdSpec)], c.isAction = false)
    ∧ mainRun [{ needRaw := true, isAction := false }]
        = [REv.enterRaw, REv.exitRaw, REv.runRepl] := by
  refine ⟨by decide, ?_⟩
  rw [(runner_raw_transitions [{ needRaw := true, isAction := false }]).2.2 (by decide)]
  decide

/-- Outcome of one pyb.exec_raw call as execbuffer sees it.  Modelled from
the spec for the missing pyboard module: exec_raw runs the buffer in raw
mode, streams stdout, and returns (ret, ret_err); the device stays in raw
mode when it returns; pyb.exit_raw_repl() takes the device out of raw mode;
PyboardError and KeyboardInterrupt abort the command. -/
inductive ExecOutcome
  | pyboardError
  | keyboardInterrupt
  | done (ret_err : List Nat)
deriving DecidableEq

/-- State after one exec command: the runner's in_raw_repl flag, whether the
device is in raw mode, and the return code. -/
structure ExecResult where
  flagInRaw : Bool
  devInRaw : Bool
  ret : Nat
deriving DecidableEq

/-- execbuffer of mpr.py, given the flag main holds and the device raw
state when it is called: on PyboardError or KeyboardInterrupt it returns 1;
on non-empty ret_err it calls pyb.exit_raw_repl() (device leaves raw mode)
and returns 1; execbuffer never touches main's in_raw_repl flag. -/
def execbuffer (flagInRaw devInRaw : Bool) (outcome : ExecOutcome) : ExecResult :=
  match outcome with
  | .pyboardError => ⟨flagInRaw, devInRaw, 1⟩
  | .keyboardInterrupt => ⟨flagInRaw, devInRaw, 1⟩
  | .done ret_err =>
    if ret_err ≠ [] then ⟨flagInRaw, false, 1⟩ else ⟨flagInRaw, devInRaw, 0⟩

/-- C9 counterexample: an exec dispatched by main (in_raw_repl = true,
device in raw mode) whose code raised on the device (non-empty stderr)
ends with the device out of raw mode while the flag is still true, so the
claimed parity fails. -/
theorem exec_error_parity_broken :
    ¬((execbuffer true true (.done [90])).devInRaw
        = (execbuffer true true (.done [90])).flagInRaw) := by
  decide

/-- C9 (amended): raw-mode parity after exec holds for every exec whose
device code produced empty stderr, and on a KeyboardInterrupt; but when
stderr is non-empty, execbuffer exits raw mode on the device while the
runner's in_raw_repl flag keeps its value true, so parity is broken exactly
there (main then returns the command's nonzero status immediately). -/
theorem exec_raw_parity (st : Bool) (err : List Nat) (herr : err ≠ []) :
    (execbuffer st st (.done [])).devInRaw = (execbuffer st st (.done [])).flagInRaw
    ∧ (execbuffer st st .keyboardInterrupt).devInRaw
        = (execbuffer st st .keyboardInterrupt).flagInRaw
    ∧ (execbuffer true true (.done err)).devInRaw = false
    ∧ (execbuffer true true (.done err)).flagInRaw = true
    ∧ (execbuffer true true (.done err)).ret = 1 := by
  refine ⟨rfl, rfl, ?_, ?_, ?_⟩ <;> simp [execbuffer, herr]

theorem exec_raw_parity_witness :
    ([90] : List Nat) ≠ []
    ∧ (execbuffer true true (.done [90])).devInRaw = false
    ∧ (execbuffer true true (.done [90])).flagInRaw = true :=
  ⟨by decide, (exec_raw_parity true [90] (by decide)).2.2.1,
    (exec_raw_parity true [90] (by decide)).2.2.2.1⟩
